import Mathlib

set_option maxRecDepth 16384

/-!
Shallow embedding of `src/hashmap.c` and `src/BRSet.c`.

The table (`hashmap_map`) is a fixed-capacity open-addressing hash map with
linear probing bounded by `MAX_CHAIN_LENGTH = 8`, doubling at half-full.
Pointers (`any_t`) are modelled as `Nat`, with `0` playing the role of `NULL`.
The C `int size` field is modelled as `Int` (it can go negative via
`hashmap_clear`).  The slot array is a `List hashmap_element` whose length is
the table size; `calloc` zero-initialisation is `nullElem`.

`hashmap_put` / `hashmap_rehash` are mutually recursive in C (a put may
trigger a rehash whose re-insertions may trigger further rehashes); the
embedding adds an explicit fuel parameter, with `none` standing for the
non-terminating / out-of-memory executions that never return to the caller.
-/

/-- One slot of the backing array (`hashmap_element` in `src/hashmap.c`):
`key` is the stored numeric key, `in_use` the C int flag, `data` the stored
`any_t` value. -/
structure hashmap_element where
  key : Nat
  in_use : Nat
  data : Nat
deriving DecidableEq, Repr

/-- A zeroed slot, as produced by `calloc` and by the blanking code in
`hashmap_remove` / `hashmap_clear`. -/
def nullElem : hashmap_element := ⟨0, 0, 0⟩

instance : Inhabited hashmap_element := ⟨nullElem⟩

/-- The map header (`hashmap_map` in `src/hashmap.c`). -/
structure hashmap_map where
  table_size : Nat
  size : Int
  data : List hashmap_element
deriving DecidableEq, Repr

def INITIAL_SIZE : Nat := 256

def MAX_CHAIN_LENGTH : Nat := 8

/-- 2^32: arithmetic on C `unsigned int` is reduced modulo this. -/
def U32 : Nat := 4294967296

/-- Modelled from the spec: status codes of the `hashmap.h` interface the
sources include (the header itself is not under `src/`).  §7 of the spec
distinguishes the OK outcome from the soft not-found indicator and the
fatal out-of-memory / full outcomes; the concrete values are the classic
ones of this C hashmap library. -/
def MAP_OK : Int := 0

/-- Modelled from the spec: the explicit "not found" indicator returned by
`hashmap_remove` / `hashmap_clear` (see `MAP_OK`). -/
def MAP_MISSING : Int := -3

/-- `hashmap_new()`: a zeroed table of `INITIAL_SIZE` slots with `size = 0`. -/
def hashmap_new : hashmap_map :=
  ⟨INITIAL_SIZE, 0, List.replicate INITIAL_SIZE nullElem⟩

/-- `hashmap_hash_int`: truncate the key to `unsigned int`, apply Robert
Jenkins' 32 bit mix, Knuth's multiplicative step, then reduce modulo the
table size.  `x <<< n` overflows modulo 2^32 as in C; xor and right shifts
stay below 2^32 on their own. -/
def hashmap_hash_int (table_size : Nat) (inKey : Nat) : Nat :=
  let key := inKey % U32
  let key := (key + (key <<< 12) % U32) % U32
  let key := key ^^^ (key >>> 22)
  let key := (key + (key <<< 4) % U32) % U32
  let key := key ^^^ (key >>> 9)
  let key := (key + (key <<< 10) % U32) % U32
  let key := key ^^^ (key >>> 2)
  let key := (key + (key <<< 7) % U32) % U32
  let key := key ^^^ (key >>> 12)
  let key := ((key >>> 3) * 2654435761) % U32
  key % table_size

/-- The linear-probing loop of `hashmap_hash` (insert location search):
starting at `curr` with `i` probes left, return the first empty slot or the
slot already holding an equal key, else `none` (MAP_FULL). -/
def probe_put (data : List hashmap_element) (table_size key : Nat) :
    Nat → Nat → Option Nat
  | _, 0 => none
  | curr, Nat.succ i =>
    let e := data.getD curr nullElem
    if e.in_use = 0 then some curr
    else if e.in_use = 1 ∧ e.key = key then some curr
    else probe_put data table_size key ((curr + 1) % table_size) i

/-- `hashmap_hash`: location search for `hashmap_put`.  Reports FULL
(`none`) immediately when the table is at least half full, otherwise
linearly probes `MAX_CHAIN_LENGTH` slots from the mixed base index. -/
def hashmap_hash (m : hashmap_map) (key : Nat) : Option Nat :=
  if m.size ≥ (m.table_size : Int) / 2 then none
  else probe_put m.data m.table_size key
    (hashmap_hash_int m.table_size key) MAX_CHAIN_LENGTH

mutual

/-- `hashmap_put`: find a location via `hashmap_hash`; while it reports
FULL, rehash (doubling) and retry; then write the key/value, mark the slot
in use and increment `size` (also on overwrite).  `fuel` bounds the
rehash/retry recursion; `none` models the executions that never return
(unbounded rehashing, or `malloc` failure aborting the operation). -/
def hashmap_put : Nat → hashmap_map → Nat → Nat → Option hashmap_map
  | 0, _, _, _ => none
  | Nat.succ fuel, m, key, value =>
    match hashmap_hash m key with
    | some index =>
      some ⟨m.table_size, m.size + 1, m.data.set index ⟨key, 1, value⟩⟩
    | none =>
      match hashmap_rehash fuel m with
      | none => none
      | some m2 => hashmap_put fuel m2 key value

/-- `hashmap_rehash`: allocate a zeroed array of twice the size, reset
`size` to 0, and re-`put` every in-use entry of the old array. -/
def hashmap_rehash : Nat → hashmap_map → Option hashmap_map
  | 0, _ => none
  | Nat.succ fuel, m =>
    rehash_loop fuel
      ⟨2 * m.table_size, 0, List.replicate (2 * m.table_size) nullElem⟩
      m.data

/-- The re-insertion loop of `hashmap_rehash` over the old slot array. -/
def rehash_loop : Nat → hashmap_map → List hashmap_element → Option hashmap_map
  | _, m, [] => some m
  | 0, _, _ :: _ => none
  | Nat.succ fuel, m, e :: rest =>
    if e.in_use = 0 then rehash_loop fuel m rest
    else
      match hashmap_put fuel m e.key e.data with
      | none => none
      | some m2 => rehash_loop fuel m2 rest

end

/-- The linear-probing loop of `hashmap_get`: return the data of the first
in-use slot whose key matches, or `0` (NULL) when the probe bound is
exhausted. -/
def hashmap_get_loop (data : List hashmap_element) (table_size key : Nat) :
    Nat → Nat → Nat
  | _, 0 => 0
  | curr, Nat.succ i =>
    let e := data.getD curr nullElem
    if e.in_use = 1 ∧ e.key = key then e.data
    else hashmap_get_loop data table_size key ((curr + 1) % table_size) i

/-- `hashmap_get`: bounded linear probe from the mixed base index; `0`
models the NULL returned when the key is not found. -/
def hashmap_get (m : hashmap_map) (key : Nat) : Nat :=
  hashmap_get_loop m.data m.table_size key
    (hashmap_hash_int m.table_size key) MAX_CHAIN_LENGTH

/-- The linear-probing loop of `hashmap_remove`: on a key match, blank the
slot and decrement `size`; else keep probing; `MAP_MISSING` with the map
unchanged when the bound is exhausted. -/
def hashmap_remove_loop (m : hashmap_map) (key : Nat) :
    Nat → Nat → Int × hashmap_map
  | _, 0 => (MAP_MISSING, m)
  | curr, Nat.succ i =>
    let e := m.data.getD curr nullElem
    if e.in_use = 1 ∧ e.key = key then
      (MAP_OK, ⟨m.table_size, m.size - 1, m.data.set curr nullElem⟩)
    else hashmap_remove_loop m key ((curr + 1) % m.table_size) i

/-- `hashmap_remove`: bounded probe from the mixed base index. -/
def hashmap_remove (m : hashmap_map) (key : Nat) : Int × hashmap_map :=
  hashmap_remove_loop m key (hashmap_hash_int m.table_size key) MAX_CHAIN_LENGTH

/-- `hashmap_clear`: the C loop `for (i = 0; i < MAX_CHAIN_LENGTH; i++)`
blanks slot `i`, decrements `size` and then `return MAP_OK` —
unconditionally, inside the loop body — so when `MAX_CHAIN_LENGTH > 0`
exactly slot 0 is blanked, `size` drops by one, and `MAP_OK` is returned
after the first iteration. -/
def hashmap_clear (m : hashmap_map) : Int × hashmap_map :=
  if 0 < MAX_CHAIN_LENGTH then
    (MAP_OK, ⟨m.table_size, m.size - 1, m.data.set 0 nullElem⟩)
  else (MAP_MISSING, m)

/-- `hashmap_get_index`: direct unchecked read of `data[index].data`
(out-of-range reads of the C array are modelled as the zeroed slot). -/
def hashmap_get_index (m : hashmap_map) (index : Nat) : Nat :=
  (m.data.getD index nullElem).data

/-- `hashmap_length`: the `size` field (the map is never NULL here). -/
def hashmap_length (m : hashmap_map) : Int := m.size

/-- `BRSetStruct` from `src/BRSet.c`: the wrapped table plus the
caller-supplied hash and equality callbacks.  Items are opaque references
modelled as `Nat`, `0` being NULL. -/
structure BRSet where
  map : hashmap_map
  hash : Nat → Nat
  eq : Nat → Nat → Bool

/-- `BRSetNew` / `_BRSetInit`: a fresh table and the two callbacks (the
`capacity` hint is ignored by `_BRSetInit`). -/
def BRSetNew (hash : Nat → Nat) (eq : Nat → Nat → Bool) : BRSet :=
  ⟨hashmap_new, hash, eq⟩

/-- `BRSetAdd`: fetch the value currently at `hash item` (the replaced
item, returned first), then put `(hash item, item)`.  `none` models a put
that never returns (see `hashmap_put`). -/
def BRSetAdd (fuel : Nat) (set : BRSet) (item : Nat) : Option (Nat × BRSet) :=
  let h := set.hash item
  let t := hashmap_get set.map h
  (hashmap_put fuel set.map h item).map fun m2 => (t, ⟨m2, set.hash, set.eq⟩)

/-- `BRSetRemove`: fetch the value at `hash item`, remove the table entry,
return the fetched value. -/
def BRSetRemove (set : BRSet) (item : Nat) : Nat × BRSet :=
  let h := set.hash item
  let r := hashmap_get set.map h
  (r, ⟨(hashmap_remove set.map h).2, set.hash, set.eq⟩)

/-- `BRSetClear`: delegate to `hashmap_clear`. -/
def BRSetClear (set : BRSet) : BRSet :=
  ⟨(hashmap_clear set.map).2, set.hash, set.eq⟩

/-- `BRSetCount`: delegate to `hashmap_length` (the C `int → size_t`
conversion is the identity on the nonnegative counts the claims touch). -/
def BRSetCount (set : BRSet) : Int := hashmap_length set.map

/-- `BRSetGet`: look up by `hash item` only. -/
def BRSetGet (set : BRSet) (item : Nat) : Nat :=
  hashmap_get set.map (set.hash item)

/-- `BRSetContains`: true iff `BRSetGet` is non-NULL. -/
def BRSetContains (set : BRSet) (item : Nat) : Bool :=
  BRSetGet set item ≠ 0

/-- `BRSetApply`: walk positions `0 ≤ i < hashmap_length` with
`hashmap_get_index`, applying the callback to every non-NULL value; this
returns, in order, the values the callback is invoked on. -/
def BRSetApplyList (set : BRSet) : List Nat :=
  (List.range (hashmap_length set.map).toNat).filterMap fun i =>
    let t := hashmap_get_index set.map i
    if t ≠ 0 then some t else none

/-- Iterated `BRSetAdd` over a list of items, propagating the fuel bound;
the replaced-item return values are discarded as the callers do. -/
def addAll (fuel : Nat) (s : BRSet) : List Nat → Option BRSet
  | [] => some s
  | x :: rest =>
    match BRSetAdd fuel s x with
    | none => none
    | some (_, s2) => addAll fuel s2 rest

/-- The key/value pairs held in the in-use slots of a slot array, in slot
order. -/
def entriesOf (l : List hashmap_element) : List (Nat × Nat) :=
  (l.filter fun e => e.in_use == 1).map fun e => (e.key, e.data)

/-- The key/value pairs held in the in-use slots of a table. -/
def entries (m : hashmap_map) : List (Nat × Nat) := entriesOf m.data

/-- Structural well-formedness of a table: the slot list realises the
declared `table_size`, the size is positive, and the C `in_use` flag only
ever holds 0 or 1. -/
def WF (m : hashmap_map) : Prop :=
  m.data.length = m.table_size ∧ 0 < m.table_size ∧
    ∀ e ∈ m.data, e.in_use = 0 ∨ e.in_use = 1

/-- The table `m` represents the association list `A`: it is well formed,
its `size` field counts the occupied slots, the occupied slots hold exactly
the pairs of `A`, and `hashmap_get` retrieves every pair of `A`. -/
def TableRep (m : hashmap_map) (A : List (Nat × Nat)) : Prop :=
  WF m ∧ m.size = ((entries m).length : Int) ∧ (entries m).Perm A ∧
    ∀ p ∈ A, hashmap_get m p.1 = p.2

/-- The bounded probe search of `hashmap_get` / `hashmap_remove` as a
predicate: is an in-use slot with this key reached within `i` probes from
`curr`? -/
def probe_found (data : List hashmap_element) (table_size key : Nat) :
    Nat → Nat → Bool
  | _, 0 => false
  | curr, Nat.succ i =>
    let e := data.getD curr nullElem
    if e.in_use = 1 ∧ e.key = key then true
    else probe_found data table_size key ((curr + 1) % table_size) i

/-- Table states reachable from `hashmap_new` by the public mutating
operations (a `put` that returns, a `remove`, a `clear`). -/
inductive Reachable : hashmap_map → Prop
  | new : Reachable hashmap_new
  | put (fuel k v : Nat) {m m' : hashmap_map} : Reachable m →
      hashmap_put fuel m k v = some m' → Reachable m'
  | remove (k : Nat) {m : hashmap_map} : Reachable m →
      Reachable (hashmap_remove m k).2
  | clear {m : hashmap_map} : Reachable m →
      Reachable (hashmap_clear m).2

/-! ### List helpers -/

theorem getD_set_self (l : List hashmap_element) (i : Nat) (a d : hashmap_element)
    (h : i < l.length) : (l.set i a).getD i d = a := by
  induction l generalizing i with
  | nil => simp at h
  | cons b t ih =>
    cases i with
    | zero => rfl
    | succ j => exact ih j (by simpa using h)

theorem getD_set_ne (l : List hashmap_element) (i j : Nat) (a d : hashmap_element)
    (h : i ≠ j) : (l.set i a).getD j d = l.getD j d := by
  induction l generalizing i j with
  | nil => rfl
  | cons b t ih =>
    cases i with
    | zero =>
      cases j with
      | zero => exact absurd rfl h
      | succ j' => rfl
    | succ i' =>
      cases j with
      | zero => rfl
      | succ j' => exact ih i' j' (fun hc => h (by rw [hc]))

theorem getD_mem_of_lt (l : List hashmap_element) (i : Nat) (d : hashmap_element)
    (h : i < l.length) : l.getD i d ∈ l := by
  induction l generalizing i with
  | nil => simp at h
  | cons b t ih =>
    cases i with
    | zero => exact List.mem_cons_self _ _
    | succ j => exact List.mem_cons_of_mem _ (ih j (by simpa using h))

theorem getD_of_ge (l : List hashmap_element) (i : Nat) (d : hashmap_element)
    (h : l.length ≤ i) : l.getD i d = d := by
  induction l generalizing i with
  | nil => rfl
  | cons b t ih =>
    cases i with
    | zero => simp at h
    | succ j => exact ih j (by simpa using h)

/-! ### Probe-search lemmas -/

theorem probe_put_lt {data : List hashmap_element} {ts key : Nat} :
    ∀ {w curr i : Nat}, probe_put data ts key curr w = some i →
      curr < ts → i < ts := by
  intro w
  induction w with
  | zero => intro curr i h _; simp [probe_put] at h
  | succ w ih =>
    intro curr i h hc
    rw [probe_put] at h
    split at h
    · exact (Option.some.inj h) ▸ hc
    · split at h
      · exact (Option.some.inj h) ▸ hc
      · exact ih h (Nat.mod_lt _ (Nat.lt_of_le_of_lt (Nat.zero_le _) hc))

theorem probe_put_spec {data : List hashmap_element} {ts key : Nat} :
    ∀ {w curr i : Nat}, probe_put data ts key curr w = some i →
      (data.getD i nullElem).in_use = 0 ∨
        ((data.getD i nullElem).in_use = 1 ∧ (data.getD i nullElem).key = key) := by
  intro w
  induction w with
  | zero => intro curr i h; simp [probe_put] at h
  | succ w ih =>
    intro curr i h
    rw [probe_put] at h
    split at h
    · cases Option.some.inj h; exact Or.inl (by assumption)
    · split at h
      · cases Option.some.inj h; exact Or.inr (by assumption)
      · exact ih h

theorem get_loop_set_probe {data : List hashmap_element} {ts key v : Nat}
    (hts : ts = data.length) :
    ∀ {w curr i : Nat}, probe_put data ts key curr w = some i → i < ts →
      hashmap_get_loop (data.set i ⟨key, 1, v⟩) ts key curr w = v := by
  intro w
  induction w with
  | zero => intro curr i h _; simp [probe_put] at h
  | succ w ih =>
    intro curr i h hi
    rw [probe_put] at h
    rw [hashmap_get_loop]
    split at h
    · -- probe stopped at an empty slot: i = curr
      cases Option.some.inj h
      rw [getD_set_self data curr _ _ (hts ▸ hi)]
      simp
    · split at h
      · -- probe stopped at the slot already holding the key: i = curr
        cases Option.some.inj h
        rw [getD_set_self data curr _ _ (hts ▸ hi)]
        simp
      · -- occupied, different key: the probe result differs from curr
        rename_i hne0 hnm
        have hne : i ≠ curr := by
          intro hEq
          subst hEq
          rcases probe_put_spec h with h0 | hmk
          · exact hne0 h0
          · exact hnm hmk
        rw [getD_set_ne data i curr _ _ hne]
        split
        · exact absurd (by assumption) (by assumption)
        · exact ih h hi

theorem get_loop_set_other {data : List hashmap_element} {ts key : Nat}
    {i : Nat} {e : hashmap_element}
    (hnew : ¬(e.in_use = 1 ∧ e.key = key))
    (hold : ¬((data.getD i nullElem).in_use = 1 ∧ (data.getD i nullElem).key = key)) :
    ∀ {w curr : Nat},
      hashmap_get_loop (data.set i e) ts key curr w =
        hashmap_get_loop data ts key curr w := by
  intro w
  induction w with
  | zero => intro curr; rfl
  | succ w ih =>
    intro curr
    rw [hashmap_get_loop, hashmap_get_loop]
    by_cases hic : i = curr
    · subst hic
      by_cases hlen : i < data.length
      · rw [getD_set_self data i _ _ hlen]
        rw [if_neg hnew, if_neg hold]
        exact ih
      · rw [List.set_eq_of_length_le (Nat.le_of_not_lt hlen)]
    · rw [getD_set_ne data i curr _ _ hic]
      split
      · rfl
      · exact ih

theorem get_loop_absent {data : List hashmap_element} {ts key : Nat}
    (habs : ∀ e ∈ data, e.in_use = 1 → e.key ≠ key) :
    ∀ {w curr : Nat}, hashmap_get_loop data ts key curr w = 0 := by
  intro w
  induction w with
  | zero => intro curr; rfl
  | succ w ih =>
    intro curr
    rw [hashmap_get_loop]
    split
    · rename_i hmatch
      by_cases hlen : curr < data.length
      · exact absurd hmatch.2 (habs _ (getD_mem_of_lt data curr _ hlen) hmatch.1)
      · rw [getD_of_ge data curr _ (Nat.le_of_not_lt hlen)] at hmatch
        exact absurd hmatch.1 (by decide)
    · exact ih

/-! ### Occupied-entry bookkeeping -/

theorem entriesOf_cons_pos {e : hashmap_element} {t : List hashmap_element}
    (h : e.in_use = 1) : entriesOf (e :: t) = (e.key, e.data) :: entriesOf t := by
  simp [entriesOf, List.filter_cons, h]

theorem entriesOf_cons_neg {e : hashmap_element} {t : List hashmap_element}
    (h : e.in_use ≠ 1) : entriesOf (e :: t) = entriesOf t := by
  simp [entriesOf, List.filter_cons, h]

theorem entriesOf_replicate : ∀ n : Nat, entriesOf (List.replicate n nullElem) = []
  | 0 => rfl
  | Nat.succ n => by
    rw [List.replicate_succ, entriesOf_cons_neg (by decide)]
    exact entriesOf_replicate n

theorem key_mem_entriesOf {l : List hashmap_element} {e : hashmap_element}
    (he : e ∈ l) (hu : e.in_use = 1) : (e.key, e.data) ∈ entriesOf l := by
  simp only [entriesOf, List.mem_map]
  exact ⟨e, List.mem_filter.2 ⟨he, by simp [hu]⟩, rfl⟩

theorem entriesOf_set_empty :
    ∀ (l : List hashmap_element) (i k v : Nat), i < l.length →
      (l.getD i nullElem).in_use ≠ 1 →
      (entriesOf (l.set i ⟨k, 1, v⟩)).Perm ((k, v) :: entriesOf l) := by
  intro l
  induction l with
  | nil => intro i k v h _; simp at h
  | cons b t ih =>
    intro i k v h hu
    cases i with
    | zero =>
      have hb : b.in_use ≠ 1 := hu
      rw [List.set_cons_zero, entriesOf_cons_pos rfl, entriesOf_cons_neg hb]
    | succ j =>
      rw [List.set_cons_succ]
      by_cases hb : b.in_use = 1
      · rw [entriesOf_cons_pos hb, entriesOf_cons_pos hb]
        exact ((ih j k v (by simpa using h) hu).cons _).trans (List.Perm.swap _ _ _)
      · rw [entriesOf_cons_neg hb, entriesOf_cons_neg hb]
        exact ih j k v (by simpa using h) hu

theorem entriesOf_set_occupied_len :
    ∀ (l : List hashmap_element) (i k v : Nat), i < l.length →
      (l.getD i nullElem).in_use = 1 →
      (entriesOf (l.set i ⟨k, 1, v⟩)).length = (entriesOf l).length := by
  intro l
  induction l with
  | nil => intro i k v h _; simp at h
  | cons b t ih =>
    intro i k v h hu
    cases i with
    | zero =>
      have hb : b.in_use = 1 := hu
      rw [List.set_cons_zero, entriesOf_cons_pos rfl, entriesOf_cons_pos hb]
      rfl
    | succ j =>
      rw [List.set_cons_succ]
      by_cases hb : b.in_use = 1
      · rw [entriesOf_cons_pos hb, entriesOf_cons_pos hb]
        simpa using ih j k v (by simpa using h) hu
      · rw [entriesOf_cons_neg hb, entriesOf_cons_neg hb]
        exact ih j k v (by simpa using h) hu

theorem tableRep_perm {m : hashmap_map} {A A' : List (Nat × Nat)}
    (h : TableRep m A) (hp : A.Perm A') : TableRep m A' :=
  ⟨h.1, h.2.1, h.2.2.1.trans hp, fun p hpA => h.2.2.2 p (hp.symm.subset hpA)⟩

theorem WF_new : WF hashmap_new := by
  refine ⟨by simp [hashmap_new], by decide, ?_⟩
  intro e he
  rw [List.eq_of_mem_replicate he]
  exact Or.inl rfl

theorem tableRep_new : TableRep hashmap_new [] := by
  refine ⟨WF_new, ?_, ?_, by simp⟩
  · show (0 : Int) = _
    rw [show entries hashmap_new = [] from entriesOf_replicate INITIAL_SIZE]
    rfl
  · rw [show entries hashmap_new = [] from entriesOf_replicate INITIAL_SIZE]

/-! ### Unfolding lemmas for the put/rehash recursion -/

theorem hashmap_hash_int_lt (ts k : Nat) (h : 0 < ts) :
    hashmap_hash_int ts k < ts := by
  unfold hashmap_hash_int
  exact Nat.mod_lt _ h

theorem hashmap_hash_eq_some {m : hashmap_map} {k i : Nat}
    (h : hashmap_hash m k = some i) :
    ¬ m.size ≥ (m.table_size : Int) / 2 ∧
      probe_put m.data m.table_size k
        (hashmap_hash_int m.table_size k) MAX_CHAIN_LENGTH = some i := by
  unfold hashmap_hash at h
  split at h
  · exact absurd h (by simp)
  · exact ⟨by assumption, h⟩

theorem put_succ_of_hash_some {fuel : Nat} {m : hashmap_map} {k v i : Nat}
    (h : hashmap_hash m k = some i) :
    hashmap_put (fuel + 1) m k v =
      some ⟨m.table_size, m.size + 1, m.data.set i ⟨k, 1, v⟩⟩ := by
  rw [hashmap_put, h]

theorem put_succ_of_hash_none {fuel : Nat} {m : hashmap_map} {k v : Nat}
    (h : hashmap_hash m k = none) :
    hashmap_put (fuel + 1) m k v =
      (hashmap_rehash fuel m).bind fun m2 => hashmap_put fuel m2 k v := by
  rw [hashmap_put, h]
  cases hashmap_rehash fuel m <;> rfl

/-- The central invariant of `hashmap_put` / `hashmap_rehash`: a table
representing the association list `A` (with pairwise distinct keys) still
represents the corresponding list after a put of a fresh key, a rehash, or
the rehash re-insertion loop. -/
theorem hashmap_invariant :
    ∀ fuel : Nat,
      (∀ m A k v m', TableRep m A → (A.map Prod.fst).Nodup →
        k ∉ A.map Prod.fst → hashmap_put fuel m k v = some m' →
        TableRep m' ((k, v) :: A)) ∧
      (∀ m A m', TableRep m A → (A.map Prod.fst).Nodup →
        hashmap_rehash fuel m = some m' → TableRep m' A) ∧
      (∀ m B l m', TableRep m B → ((B ++ entriesOf l).map Prod.fst).Nodup →
        (∀ e ∈ l, e.in_use = 0 ∨ e.in_use = 1) →
        rehash_loop fuel m l = some m' → TableRep m' (B ++ entriesOf l)) := by
  intro fuel
  induction fuel with
  | zero =>
    refine ⟨?_, ?_, ?_⟩
    · intro m A k v m' _ _ _ hput; exact absurd hput (by simp [hashmap_put])
    · intro m A m' _ _ hreh; exact absurd hreh (by simp [hashmap_rehash])
    · intro m B l m' hrep _ _ hloop
      cases l with
      | nil =>
        cases Option.some.inj hloop
        simpa [entriesOf] using hrep
      | cons e rest => exact absurd hloop (by simp [rehash_loop])
  | succ fuel ih =>
    refine ⟨?_, ?_, ?_⟩
    · -- put of a fresh key
      intro m A k v m' hrep hnd hk hput
      cases hh : hashmap_hash m k with
      | some i =>
        rw [put_succ_of_hash_some hh] at hput
        cases Option.some.inj hput
        obtain ⟨hlen, hpos, huse⟩ := hrep.1
        obtain ⟨hguard, hpr⟩ := hashmap_hash_eq_some hh
        have hbase : hashmap_hash_int m.table_size k < m.table_size :=
          hashmap_hash_int_lt _ _ hpos
        have hi : i < m.table_size := probe_put_lt hpr hbase
        have hi' : i < m.data.length := by rw [hlen]; exact hi
        have hemp : (m.data.getD i nullElem).in_use = 0 := by
          rcases probe_put_spec hpr with h0 | ⟨h1, hkey⟩
          · exact h0
          · exfalso
            apply hk
            have hm := key_mem_entriesOf (getD_mem_of_lt m.data i _ hi') h1
            rw [hkey] at hm
            exact (hrep.2.2.1.map Prod.fst).subset
              (List.mem_map_of_mem Prod.fst hm)
        have hne1 : (m.data.getD i nullElem).in_use ≠ 1 := by
          rw [hemp]; decide
        have hperm : (entriesOf (m.data.set i ⟨k, 1, v⟩)).Perm
            ((k, v) :: entriesOf m.data) :=
          entriesOf_set_empty m.data i k v hi' hne1
        refine ⟨⟨?_, hpos, ?_⟩, ?_, ?_, ?_⟩
        · simpa using hlen
        · intro e he
          rcases List.mem_or_eq_of_mem_set he with he' | he'
          · exact huse e he'
          · rw [he']; exact Or.inr rfl
        · have hlc : (entriesOf (m.data.set i ⟨k, 1, v⟩)).length =
              (entriesOf m.data).length + 1 := by
            rw [hperm.length_eq]; rfl
          have hs : m.size = ((entriesOf m.data).length : Int) := hrep.2.1
          show m.size + 1 = ((entriesOf (m.data.set i ⟨k, 1, v⟩)).length : Int)
          rw [hlc]
          push_cast
          omega
        · exact hperm.trans (hrep.2.2.1.cons _)
        · intro p hp
          rcases List.mem_cons.1 hp with hp | hp
          · rw [hp]
            show hashmap_get_loop (m.data.set i ⟨k, 1, v⟩) m.table_size k
              (hashmap_hash_int m.table_size k) MAX_CHAIN_LENGTH = v
            exact get_loop_set_probe hlen.symm hpr hi
          · have hnew : ¬((⟨k, 1, v⟩ : hashmap_element).in_use = 1 ∧
                (⟨k, 1, v⟩ : hashmap_element).key = p.1) := by
              intro hcon
              apply hk
              have : (k : Nat) = p.1 := hcon.2
              rw [this]
              exact List.mem_map_of_mem Prod.fst hp
            have hold : ¬((m.data.getD i nullElem).in_use = 1 ∧
                (m.data.getD i nullElem).key = p.1) := by
              intro hcon
              rw [hemp] at hcon
              exact absurd hcon.1 (by decide)
            have h2 : hashmap_get_loop (m.data.set i ⟨k, 1, v⟩) m.table_size p.1
                (hashmap_hash_int m.table_size p.1) MAX_CHAIN_LENGTH =
                hashmap_get_loop m.data m.table_size p.1
                (hashmap_hash_int m.table_size p.1) MAX_CHAIN_LENGTH :=
              get_loop_set_other hnew hold
            show hashmap_get_loop _ _ _ _ _ = p.2
            rw [h2]
            exact hrep.2.2.2 p hp
      | none =>
        rw [put_succ_of_hash_none hh] at hput
        cases hreh : hashmap_rehash fuel m with
        | none => rw [hreh] at hput; exact absurd hput (by simp)
        | some m2 =>
          rw [hreh] at hput
          exact ih.1 m2 A k v m' (ih.2.1 m A m2 hrep hnd hreh) hnd hk hput
    · -- rehash
      intro m A m' hrep hnd hreh
      rw [hashmap_rehash] at hreh
      have hpos2 : 0 < 2 * m.table_size := by
        have := hrep.1.2.1; omega
      have hrep0 : TableRep
          ⟨2 * m.table_size, 0, List.replicate (2 * m.table_size) nullElem⟩ [] := by
        refine ⟨⟨by simp, hpos2, ?_⟩, ?_, ?_, by simp⟩
        · intro e he
          rw [List.eq_of_mem_replicate he]
          exact Or.inl rfl
        · show (0 : Int) =
            ((entriesOf (List.replicate (2 * m.table_size) nullElem)).length : Int)
          rw [entriesOf_replicate]
          rfl
        · show (entriesOf (List.replicate (2 * m.table_size) nullElem)).Perm []
          rw [entriesOf_replicate]
      have hnd0 : (([] ++ entriesOf m.data).map Prod.fst).Nodup := by
        simp only [List.nil_append]
        exact ((hrep.2.2.1.map Prod.fst).nodup_iff).2 hnd
      have h3 := ih.2.2 _ [] m.data m' hrep0 hnd0 hrep.1.2.2 hreh
      rw [List.nil_append] at h3
      exact tableRep_perm h3 hrep.2.2.1
    · -- rehash re-insertion loop
      intro m B l m' hrep hnd huses hloop
      cases l with
      | nil =>
        cases Option.some.inj hloop
        simpa [entriesOf] using hrep
      | cons e rest =>
        rw [rehash_loop] at hloop
        by_cases he0 : e.in_use = 0
        · rw [if_pos he0] at hloop
          have he1 : e.in_use ≠ 1 := by rw [he0]; decide
          rw [entriesOf_cons_neg he1] at hnd ⊢
          exact ih.2.2 m B rest m' hrep hnd
            (fun e' he' => huses e' (List.mem_cons_of_mem _ he')) hloop
        · rw [if_neg he0] at hloop
          have he1 : e.in_use = 1 :=
            (huses e (List.mem_cons_self _ _)).resolve_left he0
          rw [entriesOf_cons_pos he1] at hnd ⊢
          cases hput : hashmap_put fuel m e.key e.data with
          | none => rw [hput] at hloop; exact absurd hloop (by simp)
          | some m2 =>
            rw [hput] at hloop
            have hndm : ((B.map Prod.fst) ++ e.key ::
                (entriesOf rest).map Prod.fst).Nodup := by
              simpa using hnd
            have hndc : (e.key :: ((B.map Prod.fst) ++
                (entriesOf rest).map Prod.fst)).Nodup :=
              (List.perm_middle.nodup_iff).1 hndm
            have hkB : e.key ∉ B.map Prod.fst := fun hmem =>
              (List.nodup_cons.1 hndc).1 (List.mem_append.2 (Or.inl hmem))
            have hndB : (B.map Prod.fst).Nodup :=
              ((List.nodup_append.1 (List.nodup_cons.1 hndc).2).1)
            have h1 := ih.1 m B e.key e.data m2 hrep hndB hkB hput
            have hnd2 : ((((e.key, e.data) :: B) ++ entriesOf rest).map
                Prod.fst).Nodup := by
              simpa using hndc
            have h3 := ih.2.2 m2 ((e.key, e.data) :: B) rest m' h1 hnd2
              (fun e' he' => huses e' (List.mem_cons_of_mem _ he')) hloop
            exact tableRep_perm h3 List.perm_middle.symm

/-- Any returning `hashmap_put` on a table representing a duplicate-free
association list increments `size` by exactly one (also on overwrite) and
makes the written value retrievable under its key. -/
theorem put_size_get :
    ∀ (fuel : Nat) {m : hashmap_map} {A : List (Nat × Nat)} {k v : Nat}
      {m' : hashmap_map},
      TableRep m A → (A.map Prod.fst).Nodup →
      hashmap_put fuel m k v = some m' →
      m'.size = m.size + 1 ∧ hashmap_get m' k = v := by
  intro fuel
  induction fuel with
  | zero => intro m A k v m' _ _ h; exact absurd h (by simp [hashmap_put])
  | succ fuel ih =>
    intro m A k v m' hrep hnd hput
    cases hh : hashmap_hash m k with
    | some i =>
      rw [put_succ_of_hash_some hh] at hput
      cases Option.some.inj hput
      obtain ⟨hlen, hpos, _⟩ := hrep.1
      obtain ⟨_, hpr⟩ := hashmap_hash_eq_some hh
      have hi : i < m.table_size :=
        probe_put_lt hpr (hashmap_hash_int_lt _ _ hpos)
      refine ⟨rfl, ?_⟩
      show hashmap_get_loop (m.data.set i ⟨k, 1, v⟩) m.table_size k
        (hashmap_hash_int m.table_size k) MAX_CHAIN_LENGTH = v
      exact get_loop_set_probe hlen.symm hpr hi
    | none =>
      rw [put_succ_of_hash_none hh] at hput
      cases hreh : hashmap_rehash fuel m with
      | none => rw [hreh] at hput; exact absurd hput (by simp)
      | some m2 =>
        rw [hreh] at hput
        have hrep2 : TableRep m2 A :=
          (hashmap_invariant fuel).2.1 m A m2 hrep hnd hreh
        have hsz : m2.size = m.size := by
          rw [hrep.2.1, hrep2.2.1, hrep.2.2.1.length_eq, hrep2.2.2.1.length_eq]
        obtain ⟨ha, hb⟩ := ih hrep2 hnd hput
        exact ⟨by rw [ha, hsz], hb⟩

/-- A key outside the represented association list is not retrievable. -/
theorem hashmap_get_absent {m : hashmap_map} {A : List (Nat × Nat)} {k : Nat}
    (hrep : TableRep m A) (hk : k ∉ A.map Prod.fst) : hashmap_get m k = 0 := by
  show hashmap_get_loop m.data m.table_size k
    (hashmap_hash_int m.table_size k) MAX_CHAIN_LENGTH = 0
  apply get_loop_absent
  intro e he hu hkey
  apply hk
  have hm := key_mem_entriesOf he hu
  rw [hkey] at hm
  exact (hrep.2.2.1.map Prod.fst).subset (List.mem_map_of_mem Prod.fst hm)

/-- Folding `BRSetAdd` over items whose hashes avoid the keys already
present and are pairwise distinct extends the represented association
list by one `(hash x, x)` pair per item. -/
theorem addAll_rep :
    ∀ (xs : List Nat) (fuel : Nat) (s : BRSet) (A : List (Nat × Nat)) (s' : BRSet),
      TableRep s.map A →
      ((A.map Prod.fst) ++ xs.map s.hash).Nodup →
      addAll fuel s xs = some s' →
      TableRep s'.map (A ++ xs.map fun x => (s.hash x, x)) ∧ s'.hash = s.hash := by
  intro xs
  induction xs with
  | nil =>
    intro fuel s A s' hrep _ h
    cases Option.some.inj h
    exact ⟨by simpa using hrep, rfl⟩
  | cons x rest ih =>
    intro fuel s A s' hrep hnd h
    rw [addAll] at h
    cases hput : hashmap_put fuel s.map (s.hash x) x with
    | none =>
      rw [show BRSetAdd fuel s x = none from by simp [BRSetAdd, hput]] at h
      exact absurd h (by simp)
    | some m2 =>
      rw [show BRSetAdd fuel s x =
          some (hashmap_get s.map (s.hash x), ⟨m2, s.hash, s.eq⟩) from by
        simp [BRSetAdd, hput]] at h
      have hndm : ((A.map Prod.fst) ++ s.hash x :: rest.map s.hash).Nodup := by
        simpa using hnd
      have hndc : (s.hash x :: ((A.map Prod.fst) ++ rest.map s.hash)).Nodup :=
        (List.perm_middle.nodup_iff).1 hndm
      have hx : s.hash x ∉ A.map Prod.fst := fun hmem =>
        (List.nodup_cons.1 hndc).1 (List.mem_append.2 (Or.inl hmem))
      have hndA : (A.map Prod.fst).Nodup :=
        (List.nodup_append.1 (List.nodup_cons.1 hndc).2).1
      have h1 := (hashmap_invariant fuel).1 s.map A (s.hash x) x m2 hrep hndA hx hput
      have hnd2 : ((((s.hash x, x) :: A).map Prod.fst) ++
          rest.map (BRSet.hash ⟨m2, s.hash, s.eq⟩)).Nodup := by
        simpa using hndc
      obtain ⟨hrep', hhash'⟩ := ih fuel ⟨m2, s.hash, s.eq⟩ ((s.hash x, x) :: A)
        s' h1 hnd2 h
      refine ⟨?_, hhash'⟩
      have hperm : (((s.hash x, x) :: A) ++
          rest.map (fun y => (s.hash y, y))).Perm
          (A ++ (x :: rest).map fun y => (s.hash y, y)) := by
        simp only [List.map_cons]
        exact List.perm_middle.symm
      exact tableRep_perm (by simpa using hrep') hperm

/-- Claim C6: starting from a fresh set, after any sequence of adds of
nonzero items with pairwise distinct hashes that all return, `count()`
equals the number of items added, `contains` is true for every added item,
and `contains` is false for every item whose hash was never added. -/
theorem C6_distinct_adds (h : Nat → Nat) (eqf : Nat → Nat → Bool)
    (xs : List Nat) (fuel : Nat) (s' : BRSet)
    (hnd : (xs.map h).Nodup) (hnz : ∀ x ∈ xs, x ≠ 0)
    (hadd : addAll fuel (BRSetNew h eqf) xs = some s') :
    BRSetCount s' = xs.length ∧
      (∀ x ∈ xs, BRSetContains s' x = true) ∧
      (∀ y : Nat, h y ∉ xs.map h → BRSetContains s' y = false) := by
  have hnd0 : ((([] : List (Nat × Nat)).map Prod.fst) ++
      xs.map (BRSetNew h eqf).hash).Nodup := by simpa using hnd
  obtain ⟨hrep, hhash⟩ := addAll_rep xs fuel (BRSetNew h eqf) [] s' tableRep_new
    hnd0 hadd
  rw [List.nil_append] at hrep
  have hh2 : s'.hash = h := hhash
  refine ⟨?_, ?_, ?_⟩
  · show s'.map.size = (xs.length : Int)
    rw [hrep.2.1, hrep.2.2.1.length_eq, List.length_map]
  · intro x hx
    have hget : hashmap_get s'.map (h x) = x :=
      hrep.2.2.2 (h x, x) (List.mem_map_of_mem _ hx)
    simp only [BRSetContains, BRSetGet, hh2, hget, ne_eq, decide_eq_true_eq]
    exact hnz x hx
  · intro y hy
    have habs : h y ∉ (xs.map fun x => ((BRSetNew h eqf).hash x, x)).map Prod.fst := by
      simpa [List.map_map, Function.comp] using hy
    have hget : hashmap_get s'.map (h y) = 0 := hashmap_get_absent hrep habs
    simp [BRSetContains, BRSetGet, hh2, hget]

def C6w_base : BRSet := BRSetNew (fun n => n) (fun a b => a == b)

def C6w_set : BRSet := (addAll 10 C6w_base [1, 2, 3]).getD C6w_base

/-- Witness for C6 at the items 1, 2, 3 with the identity hash. -/
theorem C6_distinct_adds_witness :
    BRSetCount C6w_set = 3 ∧ BRSetContains C6w_set 1 = true ∧
      BRSetContains C6w_set 2 = true ∧ BRSetContains C6w_set 3 = true ∧
      BRSetContains C6w_set 0 = false := by
  obtain ⟨hc, ht, hf⟩ := C6_distinct_adds (fun n => n) (fun a b => a == b)
    [1, 2, 3] 10 C6w_set (by decide) (by decide) rfl
  exact ⟨by simpa using hc, ht 1 (by decide), ht 2 (by decide), ht 3 (by decide),
    hf 0 (by decide)⟩

/-- The bounded probe of `hashmap_remove` finds no match: the loop leaves
the map untouched and reports `MAP_MISSING`. -/
theorem remove_loop_not_found {m : hashmap_map} {key : Nat} :
    ∀ {w curr : Nat}, probe_found m.data m.table_size key curr w = false →
      hashmap_remove_loop m key curr w = (MAP_MISSING, m) := by
  intro w
  induction w with
  | zero => intro curr _; rfl
  | succ w ih =>
    intro curr h
    rw [probe_found] at h
    rw [hashmap_remove_loop]
    split at h
    · exact absurd h (by simp)
    · rename_i hneg
      split
      · rename_i hpos; exact absurd hpos hneg
      · exact ih h

/-- Claim C7: removing a key that is not found within the 8-slot probe
bound returns the not-found indicator and leaves the whole table state
unchanged. -/
theorem C7_remove_absent (m : hashmap_map) (key : Nat)
    (h : probe_found m.data m.table_size key
      (hashmap_hash_int m.table_size key) MAX_CHAIN_LENGTH = false) :
    hashmap_remove m key = (MAP_MISSING, m) :=
  remove_loop_not_found h

/-- Witness for C7: key 5 on the fresh table. -/
theorem C7_remove_absent_witness :
    probe_found hashmap_new.data hashmap_new.table_size 5
      (hashmap_hash_int hashmap_new.table_size 5) MAX_CHAIN_LENGTH = false ∧
    hashmap_remove hashmap_new 5 = (MAP_MISSING, hashmap_new) :=
  ⟨by decide, C7_remove_absent hashmap_new 5 (by decide)⟩

/-- A returning `hashmap_put` leaves the table at most half full: the FULL
check precedes the write, so the written size is at most `table_size / 2`. -/
theorem put_load_bound :
    ∀ (fuel : Nat) {m : hashmap_map} {k v : Nat} {m' : hashmap_map},
      hashmap_put fuel m k v = some m' →
      2 * m'.size ≤ (m'.table_size : Int) := by
  intro fuel
  induction fuel with
  | zero => intro m k v m' hp; exact absurd hp (by simp [hashmap_put])
  | succ fuel ih =>
    intro m k v m' hp
    cases hh : hashmap_hash m k with
    | some i =>
      rw [put_succ_of_hash_some hh] at hp
      cases Option.some.inj hp
      have hguard := (hashmap_hash_eq_some hh).1
      show 2 * (m.size + 1) ≤ (m.table_size : Int)
      omega
    | none =>
      rw [put_succ_of_hash_none hh] at hp
      cases hreh : hashmap_rehash fuel m with
      | none => rw [hreh] at hp; exact absurd hp (by simp)
      | some m2 => rw [hreh] at hp; exact ih hp

/-- The remove loop never increases `size` and never changes the
capacity. -/
theorem remove_loop_size_le (m : hashmap_map) (key : Nat) :
    ∀ (w curr : Nat),
      (hashmap_remove_loop m key curr w).2.size ≤ m.size ∧
      (hashmap_remove_loop m key curr w).2.table_size = m.table_size := by
  intro w
  induction w with
  | zero => intro curr; exact ⟨le_refl _, rfl⟩
  | succ w ih =>
    intro curr
    rw [hashmap_remove_loop]
    split
    · constructor
      · show m.size - 1 ≤ m.size
        omega
      · rfl
    · exact ih _

/-- Claim C9: in every state reachable by the public operations the count
is at most the capacity, and a returning insert leaves the load factor at
most one half (`2 * size ≤ table_size`), because the table rehashes before
the count would exceed half the capacity. -/
theorem C9_load_invariant :
    (∀ m : hashmap_map, Reachable m → m.size ≤ (m.table_size : Int)) ∧
    (∀ (fuel : Nat) (m : hashmap_map) (k v : Nat) (m' : hashmap_map),
      hashmap_put fuel m k v = some m' →
      2 * m'.size ≤ (m'.table_size : Int)) := by
  constructor
  · intro m hreach
    induction hreach with
    | new => show (0 : Int) ≤ (256 : Nat); decide
    | put fuel k v hr heq ih =>
      have hb := put_load_bound fuel heq
      omega
    | remove k hr ih =>
      rename_i mr
      have hb := remove_loop_size_le mr k MAX_CHAIN_LENGTH
        (hashmap_hash_int mr.table_size k)
      show (hashmap_remove_loop mr k
        (hashmap_hash_int mr.table_size k) MAX_CHAIN_LENGTH).2.size ≤
        (((hashmap_remove_loop mr k
          (hashmap_hash_int mr.table_size k) MAX_CHAIN_LENGTH).2.table_size : Nat) : Int)
      rw [hb.2]
      exact le_trans hb.1 ih
    | clear hr ih =>
      rename_i mc
      show ((MAP_OK, ⟨mc.table_size, mc.size - 1,
        mc.data.set 0 nullElem⟩) : Int × hashmap_map).2.size ≤ _
      show mc.size - 1 ≤ (mc.table_size : Int)
      omega
  · intro fuel m k v m' hp
    exact put_load_bound fuel hp

set_option maxRecDepth 8192 in
/-- Witness for C9: the fresh table, and the table after one returning
insert. -/
theorem C9_load_invariant_witness :
    hashmap_new.size ≤ (hashmap_new.table_size : Int) ∧
      2 * ((hashmap_put 1 hashmap_new 5 7).getD hashmap_new).size ≤
        (((hashmap_put 1 hashmap_new 5 7).getD hashmap_new).table_size : Int) :=
  ⟨C9_load_invariant.1 hashmap_new Reachable.new,
    C9_load_invariant.2 1 hashmap_new 5 7 _ (by decide)⟩

/-- Claim C10: every `hashmap_clear` call reports `MAP_OK` and decrements
the size field by exactly one, so repeated clears on the fresh (empty)
table drive the reported length below zero. -/
theorem C10_clear_goes_negative :
    (∀ m : hashmap_map, (hashmap_clear m).1 = MAP_OK ∧
      (hashmap_clear m).2.size = m.size - 1) ∧
    hashmap_length (hashmap_clear (hashmap_clear hashmap_new).2).2 < 0 := by
  refine ⟨fun m => ⟨rfl, rfl⟩, ?_⟩
  decide

def C2cex_map : hashmap_map := (hashmap_put 1 hashmap_new 19 7).getD hashmap_new

/-- Counterexample to claim C2: key 19 hashes to base index 3, so the
table holds an entry at slot 3; `hashmap_clear` leaves that slot — within
the claimed first 8 — fully intact, refuting "resets occupancy of exactly
the first 8 slots". -/
theorem C2_counterexample :
    C2cex_map.data.getD 3 nullElem = ⟨19, 1, 7⟩ ∧
    (hashmap_clear C2cex_map).2.data.getD 3 nullElem = ⟨19, 1, 7⟩ ∧
    ((hashmap_clear C2cex_map).2.data.getD 3 nullElem).in_use ≠ 0 := by
  refine ⟨by decide, by decide, by decide⟩

/-- Claim C2 (amended): `hashmap_clear` returns `MAP_OK` after its first
loop iteration, having blanked exactly slot 0 of the backing array and
decremented `size` by one; every entry at slot index 1 or beyond is left
present. -/
theorem C2_clear_only_slot_zero (m : hashmap_map) :
    hashmap_clear m =
      (MAP_OK, ⟨m.table_size, m.size - 1, m.data.set 0 nullElem⟩) := rfl

def C1cex_base : BRSet := BRSetNew (fun _ => 7) (fun a b => a == b)

def C1cex_s1 : BRSet := ((BRSetAdd 10 C1cex_base 1).getD (0, C1cex_base)).2

def C1cex_s2 : BRSet := ((BRSetAdd 10 C1cex_s1 2).getD (0, C1cex_s1)).2

/-- Counterexample to claim C1: the distinct items 1 and 2 share the
constant hash 7; after `add 1` then `add 2` on a fresh set, `count()` is 2,
not 1 (the overwrite still increments the size field), though `get 1` does
return 2. -/
theorem C1_counterexample :
    (1 : Nat) ≠ 2 ∧ C1cex_base.hash 1 = C1cex_base.hash 2 ∧
    BRSetCount C1cex_s2 = 2 ∧ BRSetCount C1cex_s2 ≠ 1 ∧
    BRSetGet C1cex_s2 1 = 2 := by
  refine ⟨by decide, rfl, by decide, by decide, by decide⟩

/-- Claim C1 (amended): for distinct items `a`, `b` with equal hashes,
`add a` then `add b` on a fresh set (both adds returning) yields
`count() = 2` — the replacement is double counted — while `get a` returns
`b` (the collision silently overwrites). -/
theorem C1_collision_add (h : Nat → Nat) (eqf : Nat → Nat → Bool)
    (a b fuel1 fuel2 t1 t2 : Nat) (s1 s2 : BRSet)
    (hab : a ≠ b) (hhash : h a = h b)
    (h1 : BRSetAdd fuel1 (BRSetNew h eqf) a = some (t1, s1))
    (h2 : BRSetAdd fuel2 s1 b = some (t2, s2)) :
    BRSetCount s2 = 2 ∧ BRSetGet s2 a = b := by
  simp only [BRSetAdd, Option.map_eq_some'] at h1 h2
  obtain ⟨m1, hput1, hpair1⟩ := h1
  cases hpair1
  obtain ⟨m2, hput2, hpair2⟩ := h2
  cases hpair2
  have hrep1 : TableRep m1 [(h a, a)] :=
    (hashmap_invariant fuel1).1 hashmap_new [] (h a) a m1 tableRep_new
      (by simp) (by simp) hput1
  have hs1 : m1.size = hashmap_new.size + 1 :=
    (put_size_get fuel1 tableRep_new (by simp) hput1).1
  obtain ⟨hs2, hget2⟩ := put_size_get fuel2 hrep1 (by simp) hput2
  constructor
  · show m2.size = 2
    rw [hs2, hs1]
    rfl
  · show hashmap_get m2 (h a) = b
    rw [hhash]
    exact hget2

/-- Witness for the amended C1 at the constant hash 7 with items 1, 2. -/
theorem C1_collision_add_witness :
    BRSetCount C1cex_s2 = 2 ∧ BRSetGet C1cex_s2 1 = 2 :=
  C1_collision_add (fun _ => 7) (fun a b => a == b) 1 2 10 10
    ((BRSetAdd 10 C1cex_base 1).getD (0, C1cex_base)).1
    ((BRSetAdd 10 C1cex_s1 2).getD (0, C1cex_s1)).1
    C1cex_s1 C1cex_s2 (by decide) rfl rfl rfl

def C4cex_base : BRSet := BRSetNew (fun n => n) (fun a b => a == b)

def C4cex_s1 : BRSet := ((BRSetAdd 10 C4cex_base 5).getD (0, C4cex_base)).2

def C4cex_s2 : BRSet := ((BRSetAdd 10 C4cex_s1 5).getD (0, C4cex_s1)).2

/-- Counterexample to claim C4: adding the same item 5 twice to a fresh
set changes `count()` from 1 to 2 — the count is not left unchanged
between the first and the second add — though `get` still returns 5. -/
theorem C4_counterexample :
    BRSetCount C4cex_s1 = 1 ∧ BRSetCount C4cex_s2 = 2 ∧
    BRSetCount C4cex_s2 ≠ BRSetCount C4cex_s1 ∧ BRSetGet C4cex_s2 5 = 5 := by
  refine ⟨by decide, by decide, by decide, by decide⟩

/-- Claim C4 (amended): adding `x` twice (same hash, no intervening
remove) to a set whose table faithfully represents a duplicate-free
association list not containing `x`'s hash increments `count()` by one
between the first and second add — the overwrite is double counted — and a
subsequent get returns the second-added reference (last-write-wins). -/
theorem C4_add_twice (s : BRSet) (A : List (Nat × Nat)) (x : Nat)
    (fuel1 fuel2 t1 t2 : Nat) (s1 s2 : BRSet)
    (hrep : TableRep s.map A) (hnd : (A.map Prod.fst).Nodup)
    (hfresh : s.hash x ∉ A.map Prod.fst)
    (h1 : BRSetAdd fuel1 s x = some (t1, s1))
    (h2 : BRSetAdd fuel2 s1 x = some (t2, s2)) :
    BRSetCount s2 = BRSetCount s1 + 1 ∧ BRSetGet s2 x = x := by
  simp only [BRSetAdd, Option.map_eq_some'] at h1 h2
  obtain ⟨m1, hput1, hpair1⟩ := h1
  cases hpair1
  obtain ⟨m2, hput2, hpair2⟩ := h2
  cases hpair2
  have hrep1 : TableRep m1 ((s.hash x, x) :: A) :=
    (hashmap_invariant fuel1).1 s.map A (s.hash x) x m1 hrep hnd hfresh hput1
  have hnd1 : (((s.hash x, x) :: A).map Prod.fst).Nodup := by
    simpa using List.nodup_cons.2 ⟨hfresh, hnd⟩
  obtain ⟨hs2, hget2⟩ := put_size_get fuel2 hrep1 hnd1 hput2
  exact ⟨hs2, hget2⟩

/-- Witness for the amended C4 at the identity hash with item 5. -/
theorem C4_add_twice_witness :
    BRSetCount C4cex_s2 = BRSetCount C4cex_s1 + 1 ∧ BRSetGet C4cex_s2 5 = 5 :=
  C4_add_twice C4cex_base [] 5 10 10
    ((BRSetAdd 10 C4cex_base 5).getD (0, C4cex_base)).1
    ((BRSetAdd 10 C4cex_s1 5).getD (0, C4cex_s1)).1
    C4cex_s1 C4cex_s2 tableRep_new (by simp) (by simp) rfl rfl

def C3cex_m1 : hashmap_map := (hashmap_put 10 hashmap_new 1 11).getD hashmap_new

def C3cex_m2 : hashmap_map :=
  (hashmap_put 10 C3cex_m1 4294967297 22).getD hashmap_new

def C3cex_m3 : hashmap_map := (hashmap_remove C3cex_m2 1).2

def C3cex_m4 : hashmap_map :=
  (hashmap_put 10 C3cex_m3 4294967297 33).getD hashmap_new

/-- Counterexample to claim C3: keys 1 and 4294967297 share base index 150
(they agree modulo 2^32).  After putting both, removing key 1 leaves a
hole at slot 150 while key 4294967297 still occupies slot 151.  A put of
the present key 4294967297 then writes into the earlier hole at slot 150 —
not into slot 151, which keeps its old value 22 — duplicating the key; the
incremented count (2) does not exceed the number of occupied slots (2). -/
theorem C3_counterexample :
    C3cex_m3.data.getD 151 nullElem = ⟨4294967297, 1, 22⟩ ∧
    hashmap_get C3cex_m3 4294967297 = 22 ∧
    C3cex_m4.data.getD 151 nullElem = ⟨4294967297, 1, 22⟩ ∧
    C3cex_m4.data.getD 150 nullElem = ⟨4294967297, 1, 33⟩ ∧
    C3cex_m4.size = 2 ∧ (entries C3cex_m4).length = 2 := by
  refine ⟨by decide, by decide, by decide, by decide, by decide, by decide⟩

/-- Claim C3 (amended): when the probe for a present key reaches the slot
already holding it (the first empty-or-matching probe slot is that slot —
always the case when no earlier hole was created by a remove), `put`
overwrites that slot in place, still increments `size` by one, leaves the
number of occupied slots unchanged, and so — whenever the count was at
least the occupied-slot count — the count afterwards strictly exceeds the
number of occupied slots. -/
theorem C3_put_present (fuel : Nat) (m : hashmap_map) (k v i : Nat)
    (hlen : m.data.length = m.table_size) (hpos : 0 < m.table_size)
    (hh : hashmap_hash m k = some i)
    (hocc : (m.data.getD i nullElem).in_use = 1)
    (hcnt : ((entries m).length : Int) ≤ m.size) :
    hashmap_put (fuel + 1) m k v =
      some ⟨m.table_size, m.size + 1, m.data.set i ⟨k, 1, v⟩⟩ ∧
    (m.data.getD i nullElem).key = k ∧
    (entriesOf (m.data.set i ⟨k, 1, v⟩)).length = (entries m).length ∧
    ((entriesOf (m.data.set i ⟨k, 1, v⟩)).length : Int) < m.size + 1 := by
  obtain ⟨hguard, hpr⟩ := hashmap_hash_eq_some hh
  have hi : i < m.table_size := probe_put_lt hpr (hashmap_hash_int_lt _ _ hpos)
  have hi' : i < m.data.length := by rw [hlen]; exact hi
  have hkey : (m.data.getD i nullElem).key = k := by
    rcases probe_put_spec hpr with h0 | hk
    · rw [hocc] at h0; exact absurd h0 (by decide)
    · exact hk.2
  have hlc := entriesOf_set_occupied_len m.data i k v hi' hocc
  refine ⟨put_succ_of_hash_some hh, hkey, hlc, ?_⟩
  rw [hlc]
  have hcnt2 : ((entriesOf m.data).length : Int) ≤ m.size := hcnt
  show ((entriesOf m.data).length : Int) < m.size + 1
  omega

/-- Witness for the amended C3: re-putting the present key 1 (stored at
its base slot 150 with no earlier hole) in the one-entry table. -/
theorem C3_put_present_witness :
    hashmap_put 10 C3cex_m1 1 99 =
      some ⟨C3cex_m1.table_size, C3cex_m1.size + 1,
        C3cex_m1.data.set 150 ⟨1, 1, 99⟩⟩ ∧
    (C3cex_m1.data.getD 150 nullElem).key = 1 ∧
    (entriesOf (C3cex_m1.data.set 150 ⟨1, 1, 99⟩)).length =
      (entries C3cex_m1).length ∧
    ((entriesOf (C3cex_m1.data.set 150 ⟨1, 1, 99⟩)).length : Int) <
      C3cex_m1.size + 1 :=
  C3_put_present 9 C3cex_m1 1 99 150 (by decide) (by decide) (by decide)
    (by decide) (by decide)

def C8_base : BRSet := BRSetNew (fun n => n) (fun a b => a == b)

def C8_set : BRSet := (addAll 10 C8_base [1, 2, 3]).getD C8_base

/-- Counterexample to claim C8: the set built by adding 1, 2, 3 (identity
hash) holds exactly those three values — `count()` is 3 and each is
retrievable — yet `BRSetApply` visits table positions 0..2 only, where no
entry lives (the items sit at slots 150, 221 and 170), so the apply
callback is invoked on no value at all, not on each of the three exactly
once. -/
theorem C8_counterexample :
    BRSetCount C8_set = 3 ∧
    BRSetGet C8_set 1 = 1 ∧ BRSetGet C8_set 2 = 2 ∧ BRSetGet C8_set 3 = 3 ∧
    BRSetApplyList C8_set = [] := by
  refine ⟨by decide, by decide, by decide, by decide, by decide⟩

/-- Claim C8 (amended): `BRSetApply` iterates only the table positions
below `count()`, invoking the callback on the non-NULL values found there;
for the set holding exactly {1, 2, 3} under the identity hash the three
entries are stored at slots 150, 221 and 170 — all at or beyond position
`count() = 3` — so the callback is invoked on no value. -/
theorem C8_apply_truncated :
    BRSetApplyList C8_set = [] ∧ BRSetCount C8_set = 3 ∧
    (C8_set.map.data.getD 150 nullElem).data = 1 ∧
    (C8_set.map.data.getD 221 nullElem).data = 2 ∧
    (C8_set.map.data.getD 170 nullElem).data = 3 := by
  refine ⟨by decide, by decide, by decide, by decide, by decide⟩

def C5_base : BRSet := BRSetNew (fun n => n) (fun a b => a == b)

def C5_s127 : BRSet :=
  (addAll 2000 C5_base ((List.range 127).map (· + 1))).getD C5_base

def C5_s128 : BRSet := ((BRSetAdd 2000 C5_s127 128).getD (0, C5_s127)).2

def C5_s129 : BRSet := ((BRSetAdd 2000 C5_s128 129).getD (0, C5_s128)).2

/-- Every item `1..n` is retrievable from the set by `BRSetGet`. -/
def allGot (s : BRSet) (n : Nat) : Bool :=
  (List.range n).all fun i => BRSetGet s (i + 1) == i + 1

/-- Counterexample to claim C5: with the identity hash, inserting the 127
(= capacity/2 − 1) items 1..127 into a fresh set leaves all retrievable,
and inserting item 128 brings the count to 128 = capacity/2 — yet the
capacity is still 256: the claimed "triggering doubling and rehash" does
not happen on this insert, because `hashmap_hash` tests `size ≥
table_size/2` before the insert, not after. -/
theorem C5_counterexample :
    BRSetCount C5_s127 = 127 ∧ allGot C5_s127 127 = true ∧
    BRSetCount C5_s128 = 128 ∧ C5_s128.map.table_size = 256 ∧
    C5_s128.map.table_size ≠ 512 := by
  refine ⟨by decide, by decide, by decide, by decide, by decide⟩

/-- Claim C5 (amended): inserting capacity/2 − 1 = 127 distinct-hash items
leaves all of them retrievable; inserting one more item reaches exactly
half full without triggering doubling, and every item including the new
one is still retrievable; the doubling and rehash happen on the insert
after that (capacity 512), and every previously inserted item plus the
triggering item then remains retrievable by get. -/
theorem C5_growth :
    BRSetCount C5_s127 = 127 ∧ allGot C5_s127 127 = true ∧
    allGot C5_s128 128 = true ∧ C5_s128.map.table_size = 256 ∧
    BRSetCount C5_s129 = 129 ∧ allGot C5_s129 129 = true ∧
    C5_s129.map.table_size = 512 := by
  refine ⟨by decide, by decide, by decide, by decide, by decide, by decide,
    by decide⟩
